import Mathlib

/-!
Verification of the MeowAI dataset-cleaning pipeline (`create_dataset.py`).

The development shallowly embeds the breed-folder cleaner: each image file is
modelled as a record of the observations the pipeline makes about it
(decodability, pixel size, extension, classifier output, content digest,
perceptual hash, and whether deleting it succeeds), and each cleaning stage is
an explicit recursive function over the list of files in directory-scan order.
External collaborators (Pillow, OpenCV, TensorFlow, imagehash, the filesystem)
are represented by the values they feed the pipeline, never by their internals.
-/

namespace MeowAI

/-- Population count of a natural number, written with an explicit fuel
argument so that it is structurally recursive and reduces in the kernel.
`bitCountAux fuel n` counts the one bits of `n` as long as `n ≤ fuel`;
`bitCount` instantiates the fuel with the number itself, which suffices
because `n / 2 < n` for positive `n`.  This embeds Python's
`int.bit_count()` used by `hamming_distance`. -/
def bitCountAux : Nat → Nat → Nat
  | 0, _ => 0
  | _ + 1, 0 => 0
  | fuel + 1, n + 1 => ((n + 1) % 2) + bitCountAux fuel ((n + 1) / 2)

/-- Number of one bits in the binary expansion of `n`. -/
def bitCount (n : Nat) : Nat := bitCountAux n n

/-- `hamming_distance` from `create_dataset.py`:
`(a ^ b).bit_count()` — the number of differing bits. -/
def hamming_distance (a b : Nat) : Nat := bitCount (Nat.xor a b)

/-- The near-duplicate test of stage 4 (`create_dataset.py` lines 502–506):
scan the accepted hashes `seen` and report a duplicate as soon as one is
within Hamming distance `thr` of the candidate `ph`. -/
def isNearDup (thr : Nat) (seen : List Nat) (ph : Nat) : Bool :=
  seen.any (fun prev => decide (hamming_distance prev ph ≤ thr))

/-- The greedy near-duplicate loop of stage 4 at the level of perceptual
hashes (`create_dataset.py` lines 502–515), started from the accepted set
`seen`.  Returns the final accepted list (including `seen`) together with the
number of candidates removed as near duplicates.  A removed candidate leaves
the accepted set untouched; an accepted candidate is appended to it. -/
def nearDupFold (thr : Nat) (seen : List Nat) : List Nat → List Nat × Nat
  | [] => (seen, 0)
  | h :: rest =>
    if isNearDup thr seen h then
      ((nearDupFold thr seen rest).1, (nearDupFold thr seen rest).2 + 1)
    else
      nearDupFold thr (seen ++ [h]) rest

/-- The accepted perceptual hashes after one folder's near-duplicate pass over
`hs`, starting (as in the source) from an empty accepted set. -/
def greedyAccepted (thr : Nat) (hs : List Nat) : List Nat :=
  (nearDupFold thr [] hs).1

/-- The number of files removed as near duplicates by one folder's
near-duplicate pass over the hash list `hs`. -/
def greedyRemoved (thr : Nat) (hs : List Nat) : Nat :=
  (nearDupFold thr [] hs).2

/-- The environment and configuration of one `clean_breed_folder` call:
the module-level availability flags `PIL_OK` and `IMAGEHASH_OK`, and the
`min_side`, `jpg_only`, `keep_intermediate`, `remove_near_dup` arguments.
`keep_intermediate` only controls the uncounted best-effort deletion of a
converted original, which leaves every statistic and every surviving
candidate unchanged, so no stage below reads it. -/
structure Config where
  PIL_OK : Bool
  IMAGEHASH_OK : Bool
  min_side : Nat
  jpg_only : Bool
  keep_intermediate : Bool
  remove_near_dup : Bool
deriving DecidableEq, Repr

/-- One image file of a breed folder, in directory-scan order, modelled by
the observations the pipeline makes about it:
* `pilOk` — `ensure_pillow_image` returns an image (consulted only when
  `PIL_OK`);
* `width`, `height` — the `cv2_read_size` probe, `(0, 0)` when unreadable;
* `extIsJpg` — the lowercased extension is `.jpg` or `.jpeg`;
* `jpgSiblingExists` — `os.path.exists` holds of the `.jpg` sibling path;
* `convOk` — `exif_normalize_and_convert_jpg` succeeds;
* `removeOk` — `os.remove` of this candidate succeeds (a failed delete is
  swallowed by the pipeline);
* `pred` — the classifier's top ImageNet class and its confidence for this
  file, or `none` when anything inside `CatFilter.is_cat`'s guarded body
  raises;
* `md5` — the content digest, or `none` when `file_md5` raises;
* `phash` — the perceptual hash, or `none` when its computation fails
  (the `except` branch under `imagehash`, or `simple_dhash` returning
  `None`). -/
structure FileRec where
  pilOk : Bool
  width : Nat
  height : Nat
  extIsJpg : Bool
  jpgSiblingExists : Bool
  convOk : Bool
  removeOk : Bool
  pred : Option (Nat × Rat)
  md5 : Option Nat
  phash : Option Nat
deriving DecidableEq, Repr

/-- The `CleanStats` dataclass of `create_dataset.py` (lines 367–375). -/
structure CleanStats where
  before : Nat
  removed_small : Nat
  removed_broken : Nat
  removed_notcat : Nat
  removed_dup_md5 : Nat
  removed_dup_phash : Nat
  after : Nat
deriving DecidableEq, Repr

/-- The `CatFilter` object: confidence threshold, disabled flag, and the
loaded model (`none` when no model is held).  Confidences are embedded as
rationals. -/
structure CatFilter where
  threshold : Rat
  disabled : Bool
  model : Option Unit
deriving DecidableEq, Repr

/-- `CatFilter.__init__` (lines 330–346): `disabledArg` is the `--no-is-cat`
flag, `tfOk` the module-level `TF_OK`, and `loadOk` whether constructing
`MobileNetV2` succeeds.  The filter starts disabled when the flag is set or
TensorFlow is missing; a failed model load also disables it and leaves
`model` as `none`. -/
def CatFilter.init (threshold : Rat) (disabledArg tfOk loadOk : Bool) : CatFilter :=
  if disabledArg || !tfOk then ⟨threshold, true, none⟩
  else if loadOk then ⟨threshold, false, some ()⟩
  else ⟨threshold, true, none⟩

/-- `CatFilter.is_cat` (lines 348–363) applied to the classifier observation
for one file.  A disabled or model-less filter accepts everything; an
exception anywhere in the guarded body (`pred = none`) rejects; otherwise the
file is a cat exactly when the top class lies in the ImageNet cat range
281–285 and its confidence reaches the threshold. -/
def CatFilter.is_cat (cf : CatFilter) (pred : Option (Nat × Rat)) : Bool :=
  if cf.disabled = true ∨ cf.model = none then true
  else
    match pred with
    | none => false
    | some (top, prob) =>
        decide (281 ≤ top) && decide (top ≤ 285) && decide (cf.threshold ≤ prob)

/-- Output of stage 1 (validity, size, jpg conversion): surviving candidates
in order, the `removed_broken` and `removed_small` increments, and the number
of format conversions performed (a side effect the source does not count, kept
here to observe conversion idempotence). -/
structure S1Out where
  kept : List FileRec
  broken : Nat
  small : Nat
  conv : Nat
deriving DecidableEq, Repr

/-- Stage 1 of `clean_breed_folder` (lines 393–438).  Per file, in order:
a Pillow-unreadable file (when `PIL_OK`) is deleted and counted as broken —
but the counter increment sits inside the `try` after `os.remove`, so a
failed delete skips the count; an unreadable-or-small `cv2` probe likewise
deletes and counts as small only when the delete succeeds; when `jpg_only`
and `PIL_OK` and the file is not already a `.jpg` with an existing `.jpg`
sibling, it is converted (kept on success, deleted-and-counted broken on
failure, with this increment outside the `try`); otherwise the file is kept. -/
def stage1 (cfg : Config) : List FileRec → S1Out
  | [] => ⟨[], 0, 0, 0⟩
  | f :: rest =>
    if cfg.PIL_OK = true ∧ f.pilOk = false then
      if f.removeOk = true then
        ⟨(stage1 cfg rest).kept, (stage1 cfg rest).broken + 1,
          (stage1 cfg rest).small, (stage1 cfg rest).conv⟩
      else
        stage1 cfg rest
    else if f.width = 0 ∨ f.height = 0 ∨ min f.width f.height < cfg.min_side then
      if f.removeOk = true then
        ⟨(stage1 cfg rest).kept, (stage1 cfg rest).broken,
          (stage1 cfg rest).small + 1, (stage1 cfg rest).conv⟩
      else
        stage1 cfg rest
    else if cfg.jpg_only = true ∧ cfg.PIL_OK = true ∧
        (f.extIsJpg = false ∨ f.jpgSiblingExists = false) then
      if f.convOk = true then
        ⟨f :: (stage1 cfg rest).kept, (stage1 cfg rest).broken,
          (stage1 cfg rest).small, (stage1 cfg rest).conv + 1⟩
      else
        ⟨(stage1 cfg rest).kept, (stage1 cfg rest).broken + 1,
          (stage1 cfg rest).small, (stage1 cfg rest).conv⟩
    else
      ⟨f :: (stage1 cfg rest).kept, (stage1 cfg rest).broken,
        (stage1 cfg rest).small, (stage1 cfg rest).conv⟩

/-- Output of stage 2: surviving candidates and the `removed_notcat` count. -/
structure S2Out where
  kept : List FileRec
  notcat : Nat
deriving DecidableEq, Repr

/-- Stage 2 of `clean_breed_folder` (lines 440–450): keep the files the
filter accepts, delete and count the rest (the counter increment is outside
the `try`, so it happens even when the delete fails). -/
def stage2 (cf : CatFilter) : List FileRec → S2Out
  | [] => ⟨[], 0⟩
  | f :: rest =>
    if cf.is_cat f.pred = true then
      ⟨f :: (stage2 cf rest).kept, (stage2 cf rest).notcat⟩
    else
      ⟨(stage2 cf rest).kept, (stage2 cf rest).notcat + 1⟩

/-- Output of stage 3: surviving candidates, the `removed_broken` increment
of this stage, and the `removed_dup_md5` count. -/
structure S3Out where
  kept : List FileRec
  broken : Nat
  dup : Nat
deriving DecidableEq, Repr

/-- Stage 3 of `clean_breed_folder` (lines 452–473) from an arbitrary set of
already-seen digests: a file whose digest computation raises is deleted and
counted as broken; a file whose digest was already seen is deleted and
counted as an exact duplicate; otherwise the file survives and its digest is
recorded. -/
def stage3Go (seen : List Nat) : List FileRec → S3Out
  | [] => ⟨[], 0, 0⟩
  | f :: rest =>
    match f.md5 with
    | none =>
        ⟨(stage3Go seen rest).kept, (stage3Go seen rest).broken + 1,
          (stage3Go seen rest).dup⟩
    | some h =>
        if seen.contains h then
          ⟨(stage3Go seen rest).kept, (stage3Go seen rest).broken,
            (stage3Go seen rest).dup + 1⟩
        else
          ⟨f :: (stage3Go (seen ++ [h]) rest).kept,
            (stage3Go (seen ++ [h]) rest).broken,
            (stage3Go (seen ++ [h]) rest).dup⟩

/-- Stage 3 started, as in the source, with no seen digest. -/
def stage3 (files : List FileRec) : S3Out := stage3Go [] files

/-- The digests recorded by stage 3 after processing `files` on top of the
already-seen digests `seen` (the final `seen_md5` keys, in insertion order). -/
def stage3Seen (seen : List Nat) : List FileRec → List Nat
  | [] => seen
  | f :: rest =>
    match f.md5 with
    | none => stage3Seen seen rest
    | some h =>
        if seen.contains h then stage3Seen seen rest
        else stage3Seen (seen ++ [h]) rest

/-- Output of stage 4: surviving candidates, the `removed_broken` increment
of this stage, and the `removed_dup_phash` count. -/
structure S4Out where
  kept : List FileRec
  broken : Nat
  dup : Nat
deriving DecidableEq, Repr

/-- The near-duplicate loop of stage 4 (lines 478–515) from an arbitrary
accepted-hash set: a file whose perceptual hash cannot be computed is deleted
and counted as broken; a file whose hash is within distance `thr` of an
accepted hash is deleted and counted as a near duplicate; otherwise the file
survives and its hash joins the accepted set. -/
def stage4Go (thr : Nat) (seen : List Nat) : List FileRec → S4Out
  | [] => ⟨[], 0, 0⟩
  | f :: rest =>
    match f.phash with
    | none =>
        ⟨(stage4Go thr seen rest).kept, (stage4Go thr seen rest).broken + 1,
          (stage4Go thr seen rest).dup⟩
    | some ph =>
        if isNearDup thr seen ph then
          ⟨(stage4Go thr seen rest).kept, (stage4Go thr seen rest).broken,
            (stage4Go thr seen rest).dup + 1⟩
        else
          ⟨f :: (stage4Go thr (seen ++ [ph]) rest).kept,
            (stage4Go thr (seen ++ [ph]) rest).broken,
            (stage4Go thr (seen ++ [ph]) rest).dup⟩

/-- Stage 4 of `clean_breed_folder` (lines 475–517): the near-duplicate loop
runs only when near-duplicate removal is enabled and at least one of Pillow
and imagehash imported; otherwise every file is passed through untouched. -/
def stage4 (cfg : Config) (thr : Nat) (files : List FileRec) : S4Out :=
  if cfg.remove_near_dup = true ∧ (cfg.PIL_OK = true ∨ cfg.IMAGEHASH_OK = true) then
    stage4Go thr [] files
  else
    ⟨files, 0, 0⟩

/-- The observable outcome of one `clean_breed_folder` call: the returned
statistics, the number of format conversions performed, and the surviving
files (`final_paths`). -/
structure RunResult where
  stats : CleanStats
  conversions : Nat
  finalFiles : List FileRec
deriving DecidableEq, Repr

/-- `clean_breed_folder` (lines 378–525) with its side effects made explicit:
the four stages run in order over the scan of the folder; `removed_broken`
accumulates the increments of stages 1, 3 and 4; the near-duplicate stage
uses the hardcoded similarity threshold 6. -/
def cleanRun (cfg : Config) (cf : CatFilter) (files : List FileRec) : RunResult :=
  ⟨⟨files.length,
    (stage1 cfg files).small,
    (stage1 cfg files).broken + (stage3 (stage2 cf (stage1 cfg files).kept).kept).broken
      + (stage4 cfg 6 (stage3 (stage2 cf (stage1 cfg files).kept).kept).kept).broken,
    (stage2 cf (stage1 cfg files).kept).notcat,
    (stage3 (stage2 cf (stage1 cfg files).kept).kept).dup,
    (stage4 cfg 6 (stage3 (stage2 cf (stage1 cfg files).kept).kept).kept).dup,
    (stage4 cfg 6 (stage3 (stage2 cf (stage1 cfg files).kept).kept).kept).kept.length⟩,
   (stage1 cfg files).conv,
   (stage4 cfg 6 (stage3 (stage2 cf (stage1 cfg files).kept).kept).kept).kept⟩

/-- The `CleanStats` record returned by `clean_breed_folder`. -/
def clean_breed_folder (cfg : Config) (cf : CatFilter) (files : List FileRec) : CleanStats :=
  (cleanRun cfg cf files).stats

/-- A grayscale raster: the brightness of the pixel in column `x`, row `y`. -/
abbrev Pix := Nat → Nat → Nat

/-- The `Convert to int` loop of `simple_dhash`: `v = (v << 1) | int(b)`
folded over the difference bits (the freshly shifted low bit is zero, so the
bitwise or is an addition). -/
def bitsToNat (l : List Bool) : Nat :=
  l.foldl (fun v b => 2 * v + (if b then 1 else 0)) 0

/-- `simple_dhash` from `create_dataset.py` (lines 304–321).  Pillow's
`convert("L")` plus `resize` is the external collaborator `grayResize`, which
turns the opened image into a grayscale grid of the requested `(width,
height)`; the source requests `(hash_size + 1, hash_size)` and emits, for row
`y` and column `x` of the `hash_size × hash_size` bit grid, whether the left
pixel is strictly brighter than its right neighbour, rows outermost. -/
def simple_dhash (grayResize : Pix → Nat × Nat → Pix) (img : Pix) (hash_size : Nat) : Nat :=
  bitsToNat
    ((List.range hash_size).flatMap fun y =>
      (List.range hash_size).map fun x =>
        decide (grayResize img (hash_size + 1, hash_size) x y >
          grayResize img (hash_size + 1, hash_size) (x + 1) y))

/-- The hash computation the near-duplicate stage performs for one surviving
file (`create_dataset.py` lines 481–485): when the imagehash library
imported, the hash is `int(str(imagehash.phash(im, hash_size=16)), 16)` — a
DCT-based hash of the external imagehash collaborator, modelled by the value
`phashLib` that the library returns for this file — and only otherwise is it
the repository's own `simple_dhash` with `hash_size = 16`. -/
def stage4Hash (imagehashOk : Bool) (phashLib : Nat)
    (grayResize : Pix → Nat × Nat → Pix) (img : Pix) : Nat :=
  if imagehashOk = true then phashLib else simple_dhash grayResize img 16

/-- A configuration with Pillow and imagehash available, `min_side = 1`,
no jpg conversion, near-duplicate removal on. -/
def cfgPil : Config := ⟨true, true, 1, false, false, true⟩

/-- A disabled cat filter (as built when `--no-is-cat` is passed). -/
def cfOff : CatFilter := ⟨0, true, none⟩

/-- An enabled cat filter holding a loaded model, threshold 1/5. -/
def cfOn : CatFilter := ⟨(1 : Rat) / 5, false, some ()⟩

/-- A file Pillow cannot decode and whose deletion fails (for example with a
permission error): `pilOk = false`, `removeOk = false`. -/
def undeletableBroken : FileRec :=
  ⟨false, 10, 10, true, true, true, false, none, some 0, some 0⟩

/-- First of three byte-identical copies (digest 42) entering stage 3. -/
def dupeA : FileRec := ⟨true, 1, 1, true, true, true, true, none, some 42, some 0⟩

/-- Second byte-identical copy (digest 42). -/
def dupeB : FileRec := ⟨true, 2, 2, true, true, true, true, none, some 42, some 0⟩

/-- Third byte-identical copy (digest 42). -/
def dupeC : FileRec := ⟨true, 3, 3, true, true, true, true, none, some 42, some 0⟩

/-- A fully clean folder member: valid, large, canonical `.jpg` with its
sibling present, accepted by any filter state below, digest 1, hash 0. -/
def cleanA : FileRec := ⟨true, 10, 10, true, true, true, true, none, some 1, some 0⟩

/-- A second clean folder member: digest 2, hash 255 (distance 8 from 0). -/
def cleanB : FileRec := ⟨true, 10, 10, true, true, true, true, none, some 2, some 255⟩

/-- A configuration performing jpg conversion with near-duplicate removal on
and only Pillow available. -/
def cfgConvert : Config := ⟨true, false, 1, true, false, true⟩

/-- A configuration with near-duplicate removal enabled but both Pillow and
imagehash unavailable. -/
def cfgNoLibs : Config := ⟨false, false, 1, false, false, true⟩

/-- A concrete stand-in for Pillow's grayscale-resize: every produced grid is
bright in column 0 and dark elsewhere. -/
def grayW : Pix → Nat × Nat → Pix := fun _ _ x _ => if x = 0 then 1 else 0

/-- A concrete all-black source image. -/
def imgW : Pix := fun _ _ => 0

/-! ## Properties of the near-duplicate loop -/

theorem isNearDup_true_iff (thr : Nat) (seen : List Nat) (ph : Nat) :
    isNearDup thr seen ph = true ↔ ∃ a ∈ seen, hamming_distance a ph ≤ thr := by
  simp [isNearDup]

theorem isNearDup_false_iff (thr : Nat) (seen : List Nat) (ph : Nat) :
    isNearDup thr seen ph = false ↔ ∀ a ∈ seen, ¬ hamming_distance a ph ≤ thr := by
  simp [isNearDup]

theorem nearDupFold_append (thr : Nat) (l1 l2 : List Nat) : ∀ seen : List Nat,
    nearDupFold thr seen (l1 ++ l2) =
      ((nearDupFold thr (nearDupFold thr seen l1).1 l2).1,
        (nearDupFold thr seen l1).2 + (nearDupFold thr (nearDupFold thr seen l1).1 l2).2) := by
  induction l1 with
  | nil => intro seen; simp [nearDupFold]
  | cons h t ih =>
    intro seen
    by_cases hd : isNearDup thr seen h = true
    · have e1 : nearDupFold thr seen ((h :: t) ++ l2)
          = ((nearDupFold thr seen (t ++ l2)).1, (nearDupFold thr seen (t ++ l2)).2 + 1) := by
        simp [List.cons_append, nearDupFold, hd]
      have e2 : nearDupFold thr seen (h :: t)
          = ((nearDupFold thr seen t).1, (nearDupFold thr seen t).2 + 1) := by
        simp [nearDupFold, hd]
      rw [e1, e2, ih seen]
      simp only [Prod.mk.injEq]
      refine ⟨by trivial, by omega⟩
    · have e1 : nearDupFold thr seen ((h :: t) ++ l2)
          = nearDupFold thr (seen ++ [h]) (t ++ l2) := by
        simp [List.cons_append, nearDupFold, hd]
      have e2 : nearDupFold thr seen (h :: t) = nearDupFold thr (seen ++ [h]) t := by
        simp [nearDupFold, hd]
      rw [e1, e2, ih (seen ++ [h])]

theorem nearDupFold_pairwise (thr : Nat) : ∀ (hs seen : List Nat),
    seen.Pairwise (fun a b => ¬ hamming_distance a b ≤ thr) →
    ((nearDupFold thr seen hs).1).Pairwise (fun a b => ¬ hamming_distance a b ≤ thr) := by
  intro hs
  induction hs with
  | nil => intro seen hp; exact hp
  | cons h t ih =>
    intro seen hp
    by_cases hd : isNearDup thr seen h = true
    · simpa [nearDupFold, hd] using ih seen hp
    · have hfar : ∀ a ∈ seen, ¬ hamming_distance a h ≤ thr :=
        (isNearDup_false_iff thr seen h).mp (by simpa using hd)
      have hp' : (seen ++ [h]).Pairwise (fun a b => ¬ hamming_distance a b ≤ thr) := by
        refine List.pairwise_append.mpr ⟨hp, List.pairwise_singleton _ _, ?_⟩
        intro a ha b hb
        rcases List.mem_singleton.mp hb with rfl
        exact hfar a ha
      simpa [nearDupFold, hd] using ih (seen ++ [h]) hp'

/-! ## Claims C2 and C3: the near-duplicate stage -/

/-- Claim C2, as stated, is false: for the fixed scan order
`[16128, 0, 15, 240]` the near-duplicate pass removes two files at threshold
4 but only one at the default threshold 6, so lowering the threshold
increased the number of near-duplicate removals. -/
theorem C2_counterexample :
    ¬ ∀ (hs : List Nat) (t1 t2 : Nat), t1 ≤ t2 →
        greedyRemoved t1 hs ≤ greedyRemoved t2 hs := by
  intro hmono
  have h := hmono [16128, 0, 15, 240] 4 6 (by decide)
  revert h
  decide

/-- Claim C2 (amended): each single near-duplicate test is monotone in the
threshold — a candidate hash flagged as near a fixed accepted set at
threshold `t1` is also flagged at any `t2 ≥ t1`.  The end-to-end removal
count is not monotone because the accepted set itself changes with the
threshold. -/
theorem C2_near_test_monotone (t1 t2 : Nat) (seen : List Nat) (ph : Nat)
    (hle : t1 ≤ t2) (hdup : isNearDup t1 seen ph = true) :
    isNearDup t2 seen ph = true := by
  rcases (isNearDup_true_iff t1 seen ph).mp hdup with ⟨a, ha, hd⟩
  exact (isNearDup_true_iff t2 seen ph).mpr ⟨a, ha, le_trans hd hle⟩

theorem C2_witness : isNearDup 6 [0] 15 = true :=
  C2_near_test_monotone 4 6 [0] 15 (by decide) (by decide)

/-- Claim C3, as stated, is false in its first-of-group part: in the scan
order `[0, 63, 4095]` the candidates `63` and `4095` are mutually near
(Hamming distance 6), yet the accepted set is `[0, 4095]` — the member of
the group evaluated first, `63`, is removed (it is near the earlier accept
`0`) and the later member `4095` is the one kept. -/
theorem C3_counterexample :
    hamming_distance 63 4095 ≤ 6 ∧
    greedyAccepted 6 [0, 63, 4095] = [0, 4095] ∧
    63 ∉ greedyAccepted 6 [0, 63, 4095] ∧
    4095 ∈ greedyAccepted 6 [0, 63, 4095] := by
  decide

/-- Claim C3 (amended): throughout the near-duplicate pass (threshold 6) no
two accepted hashes are within Hamming distance 6 of each other; processing
one more candidate appends its hash exactly when it is not near the accepted
set, so a removed candidate's hash is never added; and every removed
candidate is within distance 6 of some hash accepted earlier in scan order
(its cluster representative). -/
theorem C3_greedy_invariants : ∀ (hs l1 : List Nat) (h : Nat),
    (greedyAccepted 6 hs).Pairwise (fun a b => ¬ hamming_distance a b ≤ 6)
    ∧ greedyAccepted 6 (l1 ++ [h]) =
        (if isNearDup 6 (greedyAccepted 6 l1) h then greedyAccepted 6 l1
          else greedyAccepted 6 l1 ++ [h])
    ∧ (isNearDup 6 (greedyAccepted 6 l1) h = true →
        ∃ a ∈ greedyAccepted 6 l1, hamming_distance a h ≤ 6) := by
  intro hs l1 h
  refine ⟨nearDupFold_pairwise 6 hs [] (List.Pairwise.nil), ?_, ?_⟩
  · show (nearDupFold 6 [] (l1 ++ [h])).1 = _
    rw [nearDupFold_append]
    by_cases hd : isNearDup 6 (nearDupFold 6 [] l1).1 h = true
    · simp [nearDupFold, hd, greedyAccepted]
    · simp [nearDupFold, hd, greedyAccepted]
  · exact fun hd => (isNearDup_true_iff 6 _ h).mp hd

theorem C3_witness :
    ∃ a ∈ greedyAccepted 6 [0], hamming_distance a 1 ≤ 6 :=
  (C3_greedy_invariants [0] [0] 1).2.2 (by decide)

/-! ## Properties of stages 1 and 2 -/

theorem stage1_id (cfg : Config) : ∀ l : List FileRec,
    (∀ f ∈ l, cfg.PIL_OK = true → f.pilOk = true) →
    (∀ f ∈ l, 0 < f.width ∧ 0 < f.height ∧ cfg.min_side ≤ min f.width f.height) →
    (∀ f ∈ l, f.extIsJpg = true ∧ f.jpgSiblingExists = true) →
    stage1 cfg l = ⟨l, 0, 0, 0⟩ := by
  intro l
  induction l with
  | nil => intro _ _ _; rfl
  | cons f rest ih =>
    intro h1 h2 h3
    have c1 : ¬ (cfg.PIL_OK = true ∧ f.pilOk = false) := by
      rintro ⟨hp, hnp⟩
      have hok := h1 f (List.mem_cons_self f rest) hp
      rw [hok] at hnp
      exact Bool.noConfusion hnp
    have c2 : ¬ (f.width = 0 ∨ f.height = 0 ∨ min f.width f.height < cfg.min_side) := by
      obtain ⟨hw, hh, hm⟩ := h2 f (List.mem_cons_self f rest)
      omega
    have c3 : ¬ (cfg.jpg_only = true ∧ cfg.PIL_OK = true ∧
        (f.extIsJpg = false ∨ f.jpgSiblingExists = false)) := by
      obtain ⟨he, hs⟩ := h3 f (List.mem_cons_self f rest)
      rintro ⟨_, _, h | h⟩
      · rw [he] at h; exact Bool.noConfusion h
      · rw [hs] at h; exact Bool.noConfusion h
    have ihr := ih (fun g hg => h1 g (List.mem_cons_of_mem f hg))
      (fun g hg => h2 g (List.mem_cons_of_mem f hg))
      (fun g hg => h3 g (List.mem_cons_of_mem f hg))
    simp only [stage1, if_neg c1, if_neg c2, if_neg c3, ihr]

theorem stage2_kept_filter (cf : CatFilter) : ∀ l : List FileRec,
    (stage2 cf l).kept = l.filter fun f => cf.is_cat f.pred := by
  intro l
  induction l with
  | nil => rfl
  | cons f rest ih =>
    by_cases hc : cf.is_cat f.pred = true
    · simp [stage2, hc, List.filter_cons, ih]
    · simp [stage2, hc, List.filter_cons, ih]

theorem stage2_notcat_countP (cf : CatFilter) : ∀ l : List FileRec,
    (stage2 cf l).notcat = l.countP fun f => !cf.is_cat f.pred := by
  intro l
  induction l with
  | nil => rfl
  | cons f rest ih =>
    by_cases hc : cf.is_cat f.pred = true
    · simp [stage2, hc, List.countP_cons, ih]
    · simp [stage2, hc, List.countP_cons, ih]

theorem stage2_all_cat (cf : CatFilter) : ∀ l : List FileRec,
    (∀ f ∈ l, cf.is_cat f.pred = true) → stage2 cf l = ⟨l, 0⟩ := by
  intro l
  induction l with
  | nil => intro _; rfl
  | cons f rest ih =>
    intro hall
    have hc := hall f (List.mem_cons_self f rest)
    have ihr := ih fun g hg => hall g (List.mem_cons_of_mem f hg)
    simp [stage2, hc, ihr]

theorem stage2_length (cf : CatFilter) : ∀ l : List FileRec,
    (stage2 cf l).kept.length + (stage2 cf l).notcat = l.length := by
  intro l
  induction l with
  | nil => rfl
  | cons f rest ih =>
    by_cases hc : cf.is_cat f.pred = true
    · simp only [stage2, if_pos hc, List.length_cons]
      omega
    · simp only [stage2, if_neg hc, List.length_cons]
      omega

theorem is_cat_of_disabled (cf : CatFilter) (h : cf.disabled = true) :
    ∀ pred, cf.is_cat pred = true := by
  intro pred
  simp [CatFilter.is_cat, h]

theorem init_disabled (th : Rat) (dflag tfOk loadOk : Bool)
    (h : dflag = true ∨ tfOk = false ∨ loadOk = false) :
    CatFilter.init th dflag tfOk loadOk = ⟨th, true, none⟩ := by
  rcases h with h | h | h
  · simp [CatFilter.init, h]
  · simp [CatFilter.init, h]
  · by_cases hd : (dflag || !tfOk) = true
    · simp [CatFilter.init, hd]
    · simp [CatFilter.init, hd, h]

/-! ## Claims C5, C7 and C9: the content-classification stage -/

/-- Claim C5: whether the filter is disabled by flag, by a missing
TensorFlow, or by a failed model load, `is_cat` accepts every input and
stage 2 keeps every file while counting zero not-cat removals. -/
theorem C5_degrade_permissive (th : Rat) (dflag tfOk loadOk : Bool)
    (h : dflag = true ∨ tfOk = false ∨ loadOk = false) :
    (∀ pred, (CatFilter.init th dflag tfOk loadOk).is_cat pred = true)
    ∧ ∀ files : List FileRec,
        stage2 (CatFilter.init th dflag tfOk loadOk) files = ⟨files, 0⟩ := by
  have hd : (CatFilter.init th dflag tfOk loadOk).disabled = true := by
    rw [init_disabled th dflag tfOk loadOk h]
  exact ⟨is_cat_of_disabled _ hd,
    fun files => stage2_all_cat _ files fun f _ => is_cat_of_disabled _ hd _⟩

theorem C5_witness : (CatFilter.init 0 true true true).is_cat none = true :=
  (C5_degrade_permissive 0 true true true (Or.inl rfl)).1 none

/-- Claim C7: with the classifier enabled and a model loaded, a successfully
classified file is accepted exactly when its top class lies in 281–285 and
its confidence reaches the threshold; stage 2 keeps exactly the accepted
files and tallies each rejected file under `removed_notcat`. -/
theorem C7_is_cat_decision (cf : CatFilter) (hdis : cf.disabled = false)
    (hmodel : cf.model = some ()) (top : Nat) (prob : Rat) (files : List FileRec) :
    (cf.is_cat (some (top, prob)) = true ↔ 281 ≤ top ∧ top ≤ 285 ∧ cf.threshold ≤ prob)
    ∧ (stage2 cf files).kept = files.filter (fun f => cf.is_cat f.pred)
    ∧ (stage2 cf files).notcat = files.countP fun f => !cf.is_cat f.pred := by
  refine ⟨?_, stage2_kept_filter cf files, stage2_notcat_countP cf files⟩
  simp [CatFilter.is_cat, hdis, hmodel, and_assoc]

theorem C7_witness :
    (cfOn.is_cat (some (283, (1 : Rat) / 2)) = true ↔
      281 ≤ 283 ∧ 283 ≤ 285 ∧ cfOn.threshold ≤ (1 : Rat) / 2)
    ∧ (stage2 cfOn []).kept = List.filter (fun f => cfOn.is_cat f.pred) ([] : List FileRec)
    ∧ (stage2 cfOn []).notcat
        = List.countP (fun f => !cfOn.is_cat f.pred) ([] : List FileRec) :=
  C7_is_cat_decision cfOn rfl rfl 283 ((1 : Rat) / 2) []

theorem stage4_nil (cfg : Config) (thr : Nat) : stage4 cfg thr [] = ⟨[], 0, 0⟩ := by
  unfold stage4
  split <;> rfl

/-- Claim C9: an exception inside the enabled-and-loaded classifier
invocation makes `is_cat` return `false`, so a stage-1 survivor whose
classification raises is deleted and tallied under `removed_notcat`, not
under `removed_broken`. -/
theorem C9_classifier_exception_notcat (cfg : Config) (cf : CatFilter) (f : FileRec)
    (hdis : cf.disabled = false) (hmodel : cf.model = some ())
    (hpred : f.pred = none) (hpil : f.pilOk = true)
    (hw : 0 < f.width) (hh : 0 < f.height) (hmin : cfg.min_side ≤ min f.width f.height)
    (hjpg : f.extIsJpg = true) (hsib : f.jpgSiblingExists = true) :
    clean_breed_folder cfg cf [f] = ⟨1, 0, 0, 1, 0, 0, 0⟩
    ∧ cf.is_cat f.pred = false := by
  have hcat : cf.is_cat f.pred = false := by
    simp [CatFilter.is_cat, hdis, hmodel, hpred]
  have h1 : stage1 cfg [f] = ⟨[f], 0, 0, 0⟩ :=
    stage1_id cfg [f]
      (fun g hg => by rcases List.mem_singleton.mp hg with rfl; exact fun _ => hpil)
      (fun g hg => by rcases List.mem_singleton.mp hg with rfl; exact ⟨hw, hh, hmin⟩)
      (fun g hg => by rcases List.mem_singleton.mp hg with rfl; exact ⟨hjpg, hsib⟩)
  have h2 : stage2 cf [f] = ⟨[], 1⟩ := by
    simp [stage2, hcat]
  refine ⟨?_, hcat⟩
  simp [clean_breed_folder, cleanRun, h1, h2, stage3, stage3Go, stage4_nil]

theorem C9_witness :
    clean_breed_folder cfgPil cfOn [cleanA] = ⟨1, 0, 0, 1, 0, 0, 0⟩
    ∧ cfOn.is_cat cleanA.pred = false :=
  C9_classifier_exception_notcat cfgPil cfOn cleanA rfl rfl rfl rfl
    (by decide) (by decide) (by decide) rfl rfl

/-! ## Properties of stage 3 -/

theorem contains_false_iff (l : List Nat) (a : Nat) : l.contains a = false ↔ a ∉ l := by
  simp

theorem contains_true_iff (l : List Nat) (a : Nat) : l.contains a = true ↔ a ∈ l := by
  simp

theorem stage3Go_length : ∀ (l : List FileRec) (seen : List Nat),
    (stage3Go seen l).kept.length + (stage3Go seen l).broken + (stage3Go seen l).dup
      = l.length := by
  intro l
  induction l with
  | nil => intro seen; rfl
  | cons f rest ih =>
    intro seen
    cases hm : f.md5 with
    | none =>
      have := ih seen
      simp only [stage3Go, hm, List.length_cons]
      omega
    | some h =>
      by_cases hc : seen.contains h = true
      · have := ih seen
        simp only [stage3Go, hm, if_pos hc, List.length_cons]
        omega
      · have := ih (seen ++ [h])
        simp only [stage3Go, hm, if_neg hc, List.length_cons]
        omega

theorem stage3Seen_spec : ∀ (l : List FileRec) (seen : List Nat),
    stage3Seen seen l = seen ++ (stage3Go seen l).kept.filterMap FileRec.md5 := by
  intro l
  induction l with
  | nil => intro seen; simp [stage3Seen, stage3Go]
  | cons f rest ih =>
    intro seen
    cases hm : f.md5 with
    | none => simp [stage3Seen, stage3Go, hm, ih seen]
    | some h =>
      by_cases hc : h ∈ seen
      · simp [stage3Seen, stage3Go, hm, hc, ih seen]
      · simp [stage3Seen, stage3Go, hm, hc, ih (seen ++ [h]), List.filterMap_cons,
          List.append_assoc]

theorem stage3Go_append : ∀ (l1 l2 : List FileRec) (seen : List Nat),
    stage3Go seen (l1 ++ l2) =
      ⟨(stage3Go seen l1).kept ++ (stage3Go (stage3Seen seen l1) l2).kept,
        (stage3Go seen l1).broken + (stage3Go (stage3Seen seen l1) l2).broken,
        (stage3Go seen l1).dup + (stage3Go (stage3Seen seen l1) l2).dup⟩ := by
  intro l1
  induction l1 with
  | nil => intro l2 seen; simp [stage3Go, stage3Seen]
  | cons f rest ih =>
    intro l2 seen
    cases hm : f.md5 with
    | none =>
      have e1 : stage3Go seen ((f :: rest) ++ l2)
          = ⟨(stage3Go seen (rest ++ l2)).kept, (stage3Go seen (rest ++ l2)).broken + 1,
              (stage3Go seen (rest ++ l2)).dup⟩ := by
        simp [stage3Go, hm]
      have e2 : stage3Go seen (f :: rest)
          = ⟨(stage3Go seen rest).kept, (stage3Go seen rest).broken + 1,
              (stage3Go seen rest).dup⟩ := by
        simp [stage3Go, hm]
      have e3 : stage3Seen seen (f :: rest) = stage3Seen seen rest := by
        simp [stage3Seen, hm]
      rw [e1, e2, e3, ih l2 seen]
      rw [S3Out.mk.injEq]
      dsimp only
      refine ⟨by trivial, by omega, by trivial⟩
    | some h =>
      by_cases hc : h ∈ seen
      · have e1 : stage3Go seen ((f :: rest) ++ l2)
            = ⟨(stage3Go seen (rest ++ l2)).kept, (stage3Go seen (rest ++ l2)).broken,
                (stage3Go seen (rest ++ l2)).dup + 1⟩ := by
          simp [stage3Go, hm, hc]
        have e2 : stage3Go seen (f :: rest)
            = ⟨(stage3Go seen rest).kept, (stage3Go seen rest).broken,
                (stage3Go seen rest).dup + 1⟩ := by
          simp [stage3Go, hm, hc]
        have e3 : stage3Seen seen (f :: rest) = stage3Seen seen rest := by
          simp [stage3Seen, hm, hc]
        rw [e1, e2, e3, ih l2 seen]
        rw [S3Out.mk.injEq]
        dsimp only
        refine ⟨by trivial, by trivial, by omega⟩
      · have e1 : stage3Go seen ((f :: rest) ++ l2)
            = ⟨f :: (stage3Go (seen ++ [h]) (rest ++ l2)).kept,
                (stage3Go (seen ++ [h]) (rest ++ l2)).broken,
                (stage3Go (seen ++ [h]) (rest ++ l2)).dup⟩ := by
          simp [stage3Go, hm, hc]
        have e2 : stage3Go seen (f :: rest)
            = ⟨f :: (stage3Go (seen ++ [h]) rest).kept,
                (stage3Go (seen ++ [h]) rest).broken,
                (stage3Go (seen ++ [h]) rest).dup⟩ := by
          simp [stage3Go, hm, hc]
        have e3 : stage3Seen seen (f :: rest) = stage3Seen (seen ++ [h]) rest := by
          simp [stage3Seen, hm, hc]
        rw [e1, e2, e3, ih l2 (seen ++ [h])]
        rw [S3Out.mk.injEq]
        refine ⟨by simp, by trivial, by trivial⟩

theorem stage3Go_kept_digest_new : ∀ (l : List FileRec) (seen : List Nat),
    ∀ g ∈ (stage3Go seen l).kept, ∃ h, g.md5 = some h ∧ h ∉ seen := by
  intro l
  induction l with
  | nil => intro seen g hg; cases hg
  | cons f rest ih =>
    intro seen g hg
    cases hm : f.md5 with
    | none =>
      simp only [stage3Go, hm] at hg
      exact ih seen g hg
    | some h =>
      by_cases hc : h ∈ seen
      · have e2 : stage3Go seen (f :: rest)
            = ⟨(stage3Go seen rest).kept, (stage3Go seen rest).broken,
                (stage3Go seen rest).dup + 1⟩ := by
          simp [stage3Go, hm, hc]
        rw [e2] at hg
        exact ih seen g hg
      · have e2 : stage3Go seen (f :: rest)
            = ⟨f :: (stage3Go (seen ++ [h]) rest).kept,
                (stage3Go (seen ++ [h]) rest).broken,
                (stage3Go (seen ++ [h]) rest).dup⟩ := by
          simp [stage3Go, hm, hc]
        rw [e2] at hg
        rcases List.mem_cons.mp hg with rfl | hg
        · exact ⟨h, hm, hc⟩
        · rcases ih (seen ++ [h]) g hg with ⟨hd, hgd, hcon⟩
          refine ⟨hd, hgd, fun hmem => hcon (List.mem_append_left _ hmem)⟩

theorem stage3Go_kept_pairwise : ∀ (l : List FileRec) (seen : List Nat),
    ((stage3Go seen l).kept).Pairwise fun a b => a.md5 ≠ b.md5 := by
  intro l
  induction l with
  | nil => intro seen; exact List.Pairwise.nil
  | cons f rest ih =>
    intro seen
    cases hm : f.md5 with
    | none =>
      simp only [stage3Go, hm]
      exact ih seen
    | some h =>
      by_cases hc : h ∈ seen
      · have e2 : stage3Go seen (f :: rest)
            = ⟨(stage3Go seen rest).kept, (stage3Go seen rest).broken,
                (stage3Go seen rest).dup + 1⟩ := by
          simp [stage3Go, hm, hc]
        rw [e2]
        exact ih seen
      · have e2 : stage3Go seen (f :: rest)
            = ⟨f :: (stage3Go (seen ++ [h]) rest).kept,
                (stage3Go (seen ++ [h]) rest).broken,
                (stage3Go (seen ++ [h]) rest).dup⟩ := by
          simp [stage3Go, hm, hc]
        rw [e2]
        refine List.Pairwise.cons ?_ (ih (seen ++ [h]))
        intro b hb
        rcases stage3Go_kept_digest_new rest (seen ++ [h]) b hb with ⟨hb5, hbd, hbc⟩
        rw [hm, hbd]
        intro heq
        have heq' : h = hb5 := Option.some.inj heq
        subst heq'
        exact hbc (List.mem_append_right _ (List.mem_singleton.mpr rfl))

/-! ## Claim C4: the exact-duplicate stage -/

/-- Claim C4, as stated, is false: with three byte-identical entrants
`dupeA`, `dupeB`, `dupeC` (all digest 42), the pair `dupeB`, `dupeC` has
identical content hash yet neither of the two survives stage 3 — only
`dupeA` does — so it is not the case that exactly one of them survives. -/
theorem C4_counterexample :
    dupeB.md5 = some 42 ∧ dupeC.md5 = some 42 ∧
    (stage3 [dupeA, dupeB, dupeC]).kept = [dupeA] ∧
    ¬ ((dupeB ∈ (stage3 [dupeA, dupeB, dupeC]).kept
          ∧ dupeC ∉ (stage3 [dupeA, dupeB, dupeC]).kept)
        ∨ (dupeB ∉ (stage3 [dupeA, dupeB, dupeC]).kept
          ∧ dupeC ∈ (stage3 [dupeA, dupeB, dupeC]).kept)) := by
  decide

/-- Claim C4 (amended): stage-3 survivors have pairwise distinct digests —
at most one file per digest survives — and extending the scan by one more
file shows the decision rule: a file whose digest already occurs among the
survivors so far is deleted and tallied in `removed_dup_md5`, a file with a
fresh digest survives (so per digest exactly the scan-order-first entrant
survives), and a digest-computation failure is tallied as broken. -/
theorem C4_first_occurrence_survives (l : List FileRec) (f : FileRec) :
    ((stage3 l).kept.Pairwise fun a b => a.md5 ≠ b.md5)
    ∧ stage3 (l ++ [f]) =
        (match f.md5 with
          | none => ⟨(stage3 l).kept, (stage3 l).broken + 1, (stage3 l).dup⟩
          | some h =>
            if ((stage3 l).kept.filterMap FileRec.md5).contains h then
              ⟨(stage3 l).kept, (stage3 l).broken, (stage3 l).dup + 1⟩
            else
              ⟨(stage3 l).kept ++ [f], (stage3 l).broken, (stage3 l).dup⟩) := by
  refine ⟨stage3Go_kept_pairwise l [], ?_⟩
  simp only [stage3]
  rw [stage3Go_append l [f] [], stage3Seen_spec l [], List.nil_append]
  cases hm : f.md5 with
  | none =>
    simp only [stage3Go, hm]
    rw [S3Out.mk.injEq]
    refine ⟨by simp, by omega, by omega⟩
  | some h =>
    by_cases hcm : h ∈ (stage3Go [] l).kept.filterMap FileRec.md5
    · have hc : ((stage3Go [] l).kept.filterMap FileRec.md5).contains h = true :=
        (contains_true_iff _ _).mpr hcm
      simp only [stage3Go, hm, if_pos hc]
      rw [S3Out.mk.injEq]
      refine ⟨by simp, by omega, by omega⟩
    · have hc : ¬ ((stage3Go [] l).kept.filterMap FileRec.md5).contains h = true :=
        fun hcc => hcm ((contains_true_iff _ _).mp hcc)
      simp only [stage3Go, hm, if_neg hc]
      rw [S3Out.mk.injEq]
      refine ⟨by simp, by omega, by omega⟩

/-! ## Properties of stage 4 -/

theorem isNearDup_append (thr : Nat) (s1 s2 : List Nat) (ph : Nat) :
    isNearDup thr (s1 ++ s2) ph = (isNearDup thr s1 ph || isNearDup thr s2 ph) := by
  simp [isNearDup, List.any_append]

theorem stage4Go_length : ∀ (l : List FileRec) (thr : Nat) (seen : List Nat),
    (stage4Go thr seen l).kept.length + (stage4Go thr seen l).broken
      + (stage4Go thr seen l).dup = l.length := by
  intro l
  induction l with
  | nil => intro thr seen; rfl
  | cons f rest ih =>
    intro thr seen
    cases hm : f.phash with
    | none =>
      have := ih thr seen
      simp only [stage4Go, hm, List.length_cons]
      omega
    | some ph =>
      by_cases hc : isNearDup thr seen ph = true
      · have := ih thr seen
        simp only [stage4Go, hm, if_pos hc, List.length_cons]
        omega
      · have := ih thr (seen ++ [ph])
        simp only [stage4Go, hm, if_neg hc, List.length_cons]
        omega

theorem stage4_length (cfg : Config) (thr : Nat) (l : List FileRec) :
    (stage4 cfg thr l).kept.length + (stage4 cfg thr l).broken + (stage4 cfg thr l).dup
      = l.length := by
  unfold stage4
  split
  · exact stage4Go_length l thr []
  · simp

theorem stage4Go_id : ∀ (l : List FileRec) (thr : Nat) (seen : List Nat),
    (∀ f ∈ l, f.phash.isSome) →
    (∀ f ∈ l, ∀ ph, f.phash = some ph → isNearDup thr seen ph = false) →
    (l.Pairwise fun a b => ∀ pa pb, a.phash = some pa → b.phash = some pb →
      ¬ hamming_distance pa pb ≤ thr) →
    stage4Go thr seen l = ⟨l, 0, 0⟩ := by
  intro l
  induction l with
  | nil => intro thr seen _ _ _; rfl
  | cons f rest ih =>
    intro thr seen hsome hfar hpw
    rcases Option.isSome_iff_exists.mp (hsome f (List.mem_cons_self f rest)) with ⟨ph, hm⟩
    have hnd : isNearDup thr seen ph = false := hfar f (List.mem_cons_self f rest) ph hm
    have hndP : ¬ (isNearDup thr seen ph = true) := by
      rw [hnd]
      exact fun hcc => Bool.noConfusion hcc
    have hpw' := List.pairwise_cons.mp hpw
    have hfar2 : ∀ g ∈ rest, ∀ pg, g.phash = some pg →
        isNearDup thr (seen ++ [ph]) pg = false := by
      intro g hg pg hpg
      rw [isNearDup_append]
      have e1 : isNearDup thr seen pg = false := hfar g (List.mem_cons_of_mem f hg) pg hpg
      have e2 : isNearDup thr [ph] pg = false := by
        rw [isNearDup_false_iff]
        intro a ha
        rw [List.mem_singleton.mp ha]
        exact hpw'.1 g hg ph pg hm hpg
      rw [e1, e2]
      rfl
    have ihr := ih thr (seen ++ [ph])
      (fun g hg => hsome g (List.mem_cons_of_mem f hg)) hfar2 hpw'.2
    have e2 : stage4Go thr seen (f :: rest)
        = ⟨f :: (stage4Go thr (seen ++ [ph]) rest).kept,
            (stage4Go thr (seen ++ [ph]) rest).broken,
            (stage4Go thr (seen ++ [ph]) rest).dup⟩ := by
      simp only [stage4Go, hm, if_neg hndP]
    rw [e2, ihr]

/-! ## Claim C10: near-duplicate stage bypassed without libraries -/

/-- Claim C10: with near-duplicate removal enabled but both Pillow and
imagehash unavailable, stage 4 passes every file through untouched — no
hash is consulted (even a file whose hash computation would fail is kept and
not counted as broken), `removed_dup_phash` is zero, and the run's surviving
files are exactly the survivors of the exact-duplicate stage. -/
theorem C10_neardup_bypassed (cfg : Config) (cf : CatFilter) (files l : List FileRec)
    (_hnd : cfg.remove_near_dup = true) (hpil : cfg.PIL_OK = false)
    (hih : cfg.IMAGEHASH_OK = false) :
    stage4 cfg 6 l = ⟨l, 0, 0⟩
    ∧ (cleanRun cfg cf files).stats.removed_dup_phash = 0
    ∧ (cleanRun cfg cf files).finalFiles
        = (stage3 (stage2 cf (stage1 cfg files).kept).kept).kept := by
  have hguard : ∀ m : List FileRec, stage4 cfg 6 m = ⟨m, 0, 0⟩ := by
    intro m
    have hng : ¬ (cfg.remove_near_dup = true ∧ (cfg.PIL_OK = true ∨ cfg.IMAGEHASH_OK = true)) := by
      rintro ⟨_, h | h⟩
      · rw [hpil] at h; exact Bool.noConfusion h
      · rw [hih] at h; exact Bool.noConfusion h
    simp [stage4, hng]
  refine ⟨hguard l, ?_, ?_⟩
  · simp [cleanRun, hguard]
  · simp [cleanRun, hguard]

theorem C10_witness :
    stage4 cfgNoLibs 6 [cleanA] = ⟨[cleanA], 0, 0⟩
    ∧ (cleanRun cfgNoLibs cfOff [cleanA]).stats.removed_dup_phash = 0
    ∧ (cleanRun cfgNoLibs cfOff [cleanA]).finalFiles
        = (stage3 (stage2 cfOff (stage1 cfgNoLibs [cleanA]).kept).kept).kept :=
  C10_neardup_bypassed cfgNoLibs cfOff [cleanA] [cleanA] rfl rfl rfl

/-! ## Stage 1 length accounting and claim C1 -/

theorem stage1_length (cfg : Config) : ∀ l : List FileRec,
    (∀ f ∈ l, f.removeOk = true) →
    (stage1 cfg l).kept.length + (stage1 cfg l).broken + (stage1 cfg l).small
      = l.length := by
  intro l
  induction l with
  | nil => intro _; rfl
  | cons f rest ih =>
    intro hall
    have hrm : f.removeOk = true := hall f (List.mem_cons_self f rest)
    have ihr := ih fun g hg => hall g (List.mem_cons_of_mem f hg)
    by_cases c1 : cfg.PIL_OK = true ∧ f.pilOk = false
    · simp only [stage1, if_pos c1, if_pos hrm, List.length_cons]
      omega
    · by_cases c2 : f.width = 0 ∨ f.height = 0 ∨ min f.width f.height < cfg.min_side
      · simp only [stage1, if_neg c1, if_pos c2, if_pos hrm, List.length_cons]
        omega
      · by_cases c3 : cfg.jpg_only = true ∧ cfg.PIL_OK = true ∧
            (f.extIsJpg = false ∨ f.jpgSiblingExists = false)
        · by_cases c4 : f.convOk = true
          · simp only [stage1, if_neg c1, if_neg c2, if_pos c3, if_pos c4, List.length_cons]
            omega
          · simp only [stage1, if_neg c1, if_neg c2, if_pos c3, if_neg c4, List.length_cons]
            omega
        · simp only [stage1, if_neg c1, if_neg c2, if_neg c3, List.length_cons]
          omega

/-- When every attempted delete succeeds, the returned statistics satisfy
the accounting identity: every scanned file ends up in `after` or in exactly
one removal counter.  (The identity can only break at the two stage-1 spots
whose counter increment sits inside the `try` after `os.remove`.) -/
theorem accounting_of_deletes_ok (cfg : Config) (cf : CatFilter) (files : List FileRec)
    (h : ∀ f ∈ files, f.removeOk = true) :
    (clean_breed_folder cfg cf files).before =
      (clean_breed_folder cfg cf files).after
      + (clean_breed_folder cfg cf files).removed_small
      + (clean_breed_folder cfg cf files).removed_broken
      + (clean_breed_folder cfg cf files).removed_notcat
      + (clean_breed_folder cfg cf files).removed_dup_md5
      + (clean_breed_folder cfg cf files).removed_dup_phash := by
  have h1 := stage1_length cfg files h
  have h2 := stage2_length cf (stage1 cfg files).kept
  have h3 := stage3Go_length (stage2 cf (stage1 cfg files).kept).kept []
  have h4 := stage4_length cfg 6 (stage3 (stage2 cf (stage1 cfg files).kept).kept).kept
  dsimp only [clean_breed_folder, cleanRun, stage3]
  dsimp only [stage3] at h4
  omega

/-- Claim C1 is refuted by the code on a folder holding one Pillow-unreadable
file whose delete fails: the `removed_broken` increment sits inside the `try`
after `os.remove`, so the failed delete skips the count and the returned
record has `before = 1` while `after` and every removal counter are zero. -/
theorem C1_accounting_violated_on_failed_delete :
    clean_breed_folder cfgPil cfOff [undeletableBroken] = ⟨1, 0, 0, 0, 0, 0, 0⟩
    ∧ ¬ ((clean_breed_folder cfgPil cfOff [undeletableBroken]).before =
        (clean_breed_folder cfgPil cfOff [undeletableBroken]).after
        + (clean_breed_folder cfgPil cfOff [undeletableBroken]).removed_small
        + (clean_breed_folder cfgPil cfOff [undeletableBroken]).removed_broken
        + (clean_breed_folder cfgPil cfOff [undeletableBroken]).removed_notcat
        + (clean_breed_folder cfgPil cfOff [undeletableBroken]).removed_dup_md5
        + (clean_breed_folder cfgPil cfOff [undeletableBroken]).removed_dup_phash) := by
  decide

/-! ## Claim C6: a second run on a clean, converted folder is the identity -/

theorem stage3Go_id : ∀ (l : List FileRec) (seen : List Nat),
    (∀ f ∈ l, f.md5.isSome) →
    (l.Pairwise fun a b => a.md5 ≠ b.md5) →
    (∀ f ∈ l, ∀ h, f.md5 = some h → h ∉ seen) →
    stage3Go seen l = ⟨l, 0, 0⟩ := by
  intro l
  induction l with
  | nil => intro seen _ _ _; rfl
  | cons f rest ih =>
    intro seen hsome hpw hnew
    rcases Option.isSome_iff_exists.mp (hsome f (List.mem_cons_self f rest)) with ⟨h, hm⟩
    have hc : h ∉ seen := hnew f (List.mem_cons_self f rest) h hm
    have hpw' := List.pairwise_cons.mp hpw
    have hnew2 : ∀ g ∈ rest, ∀ hg5, g.md5 = some hg5 → hg5 ∉ seen ++ [h] := by
      intro g hg hg5 hgm hmem
      rcases List.mem_append.mp hmem with hmem | hmem
      · exact hnew g (List.mem_cons_of_mem f hg) hg5 hgm hmem
      · rcases List.mem_singleton.mp hmem with rfl
        exact hpw'.1 g hg (by rw [hm, hgm])
    have ihr := ih (seen ++ [h])
      (fun g hg => hsome g (List.mem_cons_of_mem f hg)) hpw'.2 hnew2
    have e2 : stage3Go seen (f :: rest)
        = ⟨f :: (stage3Go (seen ++ [h]) rest).kept,
            (stage3Go (seen ++ [h]) rest).broken,
            (stage3Go (seen ++ [h]) rest).dup⟩ := by
      simp [stage3Go, hm, hc]
    rw [e2, ihr]

/-- Claim C6: on a folder whose files are all decodable, large enough,
already canonical `.jpg` with their sibling present, all accepted by the
(identically configured) filter, with pairwise distinct digests and — when
the near-duplicate stage will run — computable, pairwise-far perceptual
hashes, a run removes nothing, converts nothing, and returns every file
untouched. -/
theorem C6_second_run_is_identity (cfg : Config) (cf : CatFilter) (files : List FileRec)
    (h1 : ∀ f ∈ files, cfg.PIL_OK = true → f.pilOk = true)
    (h2 : ∀ f ∈ files, 0 < f.width ∧ 0 < f.height ∧ cfg.min_side ≤ min f.width f.height)
    (h3 : ∀ f ∈ files, f.extIsJpg = true ∧ f.jpgSiblingExists = true)
    (h4 : ∀ f ∈ files, cf.is_cat f.pred = true)
    (h5 : ∀ f ∈ files, f.md5.isSome)
    (h6 : files.Pairwise fun a b => a.md5 ≠ b.md5)
    (h7 : cfg.remove_near_dup = true → (cfg.PIL_OK = true ∨ cfg.IMAGEHASH_OK = true) →
      (∀ f ∈ files, f.phash.isSome)
      ∧ files.Pairwise fun a b => ∀ pa pb, a.phash = some pa → b.phash = some pb →
          ¬ hamming_distance pa pb ≤ 6) :
    cleanRun cfg cf files = ⟨⟨files.length, 0, 0, 0, 0, 0, files.length⟩, 0, files⟩ := by
  have e1 := stage1_id cfg files h1 h2 h3
  have e2 := stage2_all_cat cf files h4
  have e3 : stage3 files = ⟨files, 0, 0⟩ :=
    stage3Go_id files [] h5 h6 (fun f _ h _ => List.not_mem_nil h)
  have e4 : stage4 cfg 6 files = ⟨files, 0, 0⟩ := by
    by_cases hg : cfg.remove_near_dup = true ∧ (cfg.PIL_OK = true ∨ cfg.IMAGEHASH_OK = true)
    · rw [stage4, if_pos hg]
      exact stage4Go_id files 6 [] (h7 hg.1 hg.2).1
        (fun f _ ph _ => rfl) (h7 hg.1 hg.2).2
    · rw [stage4, if_neg hg]
  simp [cleanRun, e1, e2, e3, e4]

theorem C6_witness :
    cleanRun cfgConvert cfOff [cleanA, cleanB]
      = ⟨⟨2, 0, 0, 0, 0, 0, 2⟩, 0, [cleanA, cleanB]⟩ :=
  C6_second_run_is_identity cfgConvert cfOff [cleanA, cleanB]
    (by decide) (by decide) (by decide) (by decide) (by decide)
    (by decide)
    (fun _ _ => ⟨by decide, by
      refine List.Pairwise.cons ?_ (List.pairwise_singleton _ _)
      intro b hb pa pb hpa hpb
      rcases List.mem_singleton.mp hb with rfl
      have e1 : (0 : Nat) = pa := Option.some.inj hpa
      have e2 : (255 : Nat) = pb := Option.some.inj hpb
      subst e1
      subst e2
      decide⟩)


/-! ## Claim C8: the perceptual-hash computation -/

theorem bitsToNat_append_singleton (l : List Bool) (b : Bool) :
    bitsToNat (l ++ [b]) = 2 * bitsToNat l + (if b then 1 else 0) := by
  simp [bitsToNat, List.foldl_append]

theorem bitsToNat_lt : ∀ l : List Bool, bitsToNat l < 2 ^ l.length := by
  intro l
  induction l using List.reverseRecOn with
  | nil => simp [bitsToNat]
  | append_singleton l b ih =>
    rw [bitsToNat_append_singleton]
    have hc : (if b then 1 else 0) ≤ 1 := by cases b <;> simp
    simp only [List.length_append, List.length_singleton, pow_succ]
    omega

theorem bitsToNat_testBit : ∀ (l : List Bool) (i : Nat), i < l.length →
    (bitsToNat l).testBit i = l.getD (l.length - 1 - i) false := by
  intro l
  induction l using List.reverseRecOn with
  | nil => intro i hi; exact absurd hi (by simp)
  | append_singleton l b ih =>
    intro i hi
    rw [bitsToNat_append_singleton]
    cases i with
    | zero =>
      have hb : (2 * bitsToNat l + (if b then 1 else 0)).testBit 0 = b := by
        rw [Nat.testBit_zero]
        cases b
        · have hmod : (2 * bitsToNat l + 0) % 2 = 0 := by omega
          simp [hmod]
        · have hmod : (2 * bitsToNat l + 1) % 2 = 1 := by omega
          simp [hmod]
      rw [hb]
      have hidx : (l ++ [b]).length - 1 - 0 = l.length := by simp
      rw [hidx]
      rw [List.getD_eq_getElem?_getD, List.getElem?_append_right (le_refl l.length)]
      simp
    | succ j =>
      have hj : j < l.length := by
        have hlen := hi
        simp only [List.length_append, List.length_singleton] at hlen
        omega
      have hstep : (2 * bitsToNat l + (if b then 1 else 0)).testBit (j + 1)
          = (bitsToNat l).testBit j := by
        rw [Nat.testBit_succ]
        congr 1
        cases b
        · show (2 * bitsToNat l + 0) / 2 = bitsToNat l
          omega
        · show (2 * bitsToNat l + 1) / 2 = bitsToNat l
          omega
      rw [hstep, ih j hj]
      have hidx : (l ++ [b]).length - 1 - (j + 1) = l.length - 1 - j := by
        simp only [List.length_append, List.length_singleton]
        omega
      rw [hidx]
      rw [List.getD_eq_getElem?_getD, List.getD_eq_getElem?_getD,
        List.getElem?_append_left (by omega : l.length - 1 - j < l.length)]

theorem rows_length (bit : Nat → Nat → Bool) : ∀ n : Nat,
    ((List.range n).flatMap fun j => (List.range 16).map fun i => bit i j).length
      = 16 * n := by
  intro n
  induction n with
  | zero => rfl
  | succ n ih =>
    rw [List.range_succ, List.flatMap_append]
    simp only [List.length_append, ih]
    simp
    omega

theorem rows_getD (bit : Nat → Nat → Bool) : ∀ (n x y : Nat), x < 16 → y < n →
    ((List.range n).flatMap fun j => (List.range 16).map fun i => bit i j).getD
        (16 * y + x) false
      = bit x y := by
  intro n
  induction n with
  | zero => intro x y _ hy; exact absurd hy (Nat.not_lt_zero y)
  | succ n ih =>
    intro x y hx hy
    rw [List.range_succ, List.flatMap_append]
    by_cases hyn : y < n
    · have hidx : 16 * y + x <
          ((List.range n).flatMap fun j => (List.range 16).map fun i => bit i j).length := by
        rw [rows_length]
        omega
      rw [List.getD_eq_getElem?_getD, List.getElem?_append_left hidx,
        ← List.getD_eq_getElem?_getD]
      exact ih x y hx hyn
    · have hyeq : y = n := by omega
      subst hyeq
      rw [List.getD_eq_getElem?_getD,
        List.getElem?_append_right (by rw [rows_length]; omega), rows_length]
      have hsub : 16 * y + x - 16 * y = x := by omega
      rw [hsub]
      simp [List.getElem?_range hx]

set_option maxRecDepth 4000 in
/-- Claim C8, as stated, is false: inside the cited lines the stage computes
the hash with `imagehash.phash` whenever the imagehash library is available,
using the external library's value verbatim rather than the described dHash
procedure.  Concretely, on the image `imgW` (resized by `grayW` to a grid
bright only in column 0) with the library reporting 0, the stage's hash is
the library's 0 while the described computation yields a different value —
its bit 255, for grid position `(0, 0)`, is set. -/
theorem C8_counterexample :
    stage4Hash true 0 grayW imgW = 0
    ∧ stage4Hash false 0 grayW imgW = simple_dhash grayW imgW 16
    ∧ stage4Hash true 0 grayW imgW ≠ simple_dhash grayW imgW 16
    ∧ (simple_dhash grayW imgW 16).testBit 255 = true :=
  ⟨rfl, rfl, by decide, by decide⟩

/-- Claim C8 (amended): only when the imagehash library is absent is the
hash of a surviving file computed by the described procedure — the
repository's `simple_dhash` with `hash_size = 16`, which asks Pillow for the
grayscale image resized to the 17 × 16 grid (one column wider than the
16-bit-wide hash rows) and sets the output bit for grid position `(x, y)`
(bit `255 - (16 * y + x)` of the 256-bit result) to whether the left pixel
is strictly brighter than its right neighbour.  When the library is present
the stage instead uses the external `imagehash.phash` value verbatim. -/
theorem C8_dhash_bits (gr : Pix → Nat × Nat → Pix) (img : Pix) (lib : Nat) (x y : Nat)
    (hx : x < 16) (hy : y < 16) :
    stage4Hash false lib gr img = simple_dhash gr img 16
    ∧ stage4Hash true lib gr img = lib
    ∧ ((simple_dhash gr img 16).testBit (255 - (16 * y + x))
        = decide (gr img (17, 16) x y > gr img (17, 16) (x + 1) y))
    ∧ simple_dhash gr img 16 < 2 ^ 256 := by
  have hdiff : simple_dhash gr img 16
      = bitsToNat ((List.range 16).flatMap fun j =>
          (List.range 16).map fun i =>
            decide (gr img (17, 16) i j > gr img (17, 16) (i + 1) j)) := rfl
  have hlen : ((List.range 16).flatMap fun j =>
      (List.range 16).map fun i =>
        decide (gr img (17, 16) i j > gr img (17, 16) (i + 1) j)).length = 256 := by
    rw [rows_length]
  refine ⟨rfl, rfl, ?_, ?_⟩
  · have h1 := bitsToNat_testBit
      ((List.range 16).flatMap fun j =>
        (List.range 16).map fun i =>
          decide (gr img (17, 16) i j > gr img (17, 16) (i + 1) j))
      (255 - (16 * y + x)) (by rw [hlen]; omega)
    rw [hlen] at h1
    have hidx : 256 - 1 - (255 - (16 * y + x)) = 16 * y + x := by omega
    rw [hidx] at h1
    rw [hdiff, h1]
    exact rows_getD _ 16 x y hx hy
  · have h2 := bitsToNat_lt
      ((List.range 16).flatMap fun j =>
        (List.range 16).map fun i =>
          decide (gr img (17, 16) i j > gr img (17, 16) (i + 1) j))
    rw [hlen] at h2
    rw [hdiff]
    exact h2

theorem C8_witness :
    (0 : Nat) < 16
    ∧ stage4Hash false 7 grayW imgW = simple_dhash grayW imgW 16
    ∧ ((simple_dhash grayW imgW 16).testBit (255 - (16 * 0 + 0))
        = decide (grayW imgW (17, 16) 0 0 > grayW imgW (17, 16) (0 + 1) 0)) :=
  ⟨by decide, (C8_dhash_bits grayW imgW 7 0 0 (by decide) (by decide)).1,
    (C8_dhash_bits grayW imgW 7 0 0 (by decide) (by decide)).2.2.1⟩

end MeowAI
